import Mathlib

/-!
Verification of the minigrep streaming line-search engine.

The definitions below are a shallow embedding of the Rust sources:
matching (`src/matcher/impls.rs`), the context-window manager
(`src/search/context.rs`), the search orchestrator (`src/search/mod.rs`),
the output sinks (`src/output/sinks.rs`), the output formatter
(`src/output/formatter.rs`) and the historical whole-buffer `search`
function (`src/lib.rs`).  Printing and terminal colouring are external
pass-through collaborators and are modelled as the identity on strings;
the external regex engine is modelled abstractly as a predicate /
fragment-iterator, and concretely for literal patterns.
-/

namespace Minigrep

/-- Model of `MatchResult` from `src/matcher/mod.rs`: either the list of matched
fragments (only-matching mode) or the whole line (default mode). -/
inductive MatchResult where
  | Content (fragments : List String)
  | Line (content : String)
  deriving Repr, DecidableEq

/-- Model of `ContextKind` from `src/output/mod.rs`. -/
inductive ContextKind where
  | Before
  | After
  deriving Repr, DecidableEq

/-- Model of `ContextLine` from `src/output/mod.rs` (paths modelled as strings). -/
structure ContextLine where
  path : String
  lineNumber : Nat
  content : String
  kind : ContextKind
  deriving Repr, DecidableEq

/-- Model of `MatchedLine` from `src/output/mod.rs`. -/
structure MatchedLine where
  path : String
  lineNumber : Nat
  matchResult : MatchResult
  deriving Repr, DecidableEq

/-- Model of `std::ops::ControlFlow<()>` as used by the `Sink` trait. -/
inductive ControlFlow where
  | Continue
  | Break
  deriving Repr, DecidableEq

/-- One call made by the context manager into the active `Sink`, in call
order.  The Rust code performs these calls as side effects; the embedding
records them as an event trace. -/
inductive SinkEvent where
  | matched (m : MatchedLine)
  | context (c : ContextLine)
  | contextBreak
  deriving Repr, DecidableEq

/-- Embedding of `DefaultMatcher::find` from `src/matcher/impls.rs`.  The compiled
regex is external; it enters the model as the predicate `isMatch`
standing for `re.is_match`. -/
def DefaultMatcher.find (isMatch : String → Bool) (invertMatch : Bool)
    (line : String) : Option MatchResult :=
  let is_match := isMatch line
  if (is_match && !invertMatch) || (!is_match && invertMatch) then
    some (MatchResult.Line line)
  else
    none

/-- Embedding of `OnlyMatchingMatcher::find` from `src/matcher/impls.rs`.  `findIter`
stands for `re.find_iter(line).map(|m| m.as_str()).collect()`. -/
def OnlyMatchingMatcher.find (findIter : String → List String)
    (line : String) : Option MatchResult :=
  let found := findIter line
  if found.isEmpty then none else some (MatchResult.Content found)

/-- Model of the external regex engine's `find_iter` for a literal
pattern, over character lists and with explicit start positions: scan
left to right; at a position where the pattern occurs, report it and
resume after its end; otherwise advance one character.  "Resume after
its end" is realised with a pending-skip counter (`pat.length - 1`
further characters to pass over after a reported match), keeping the
recursion structural in the scanned list. -/
def regexFindAllAux (pat : List Char) : List Char → Nat → Nat → List (Nat × List Char)
  | [], i, 0 => if pat.isEmpty then [(i, [])] else []
  | [], _, _ + 1 => []
  | _ :: rest, i, k + 1 => regexFindAllAux pat rest (i + 1) k
  | c :: rest, i, 0 =>
    if pat.isPrefixOf (c :: rest) then
      (i, pat) :: regexFindAllAux pat rest (i + 1) (pat.length - 1)
    else
      regexFindAllAux pat rest (i + 1) 0

/-- The fragment list produced by the modelled literal-pattern engine on
a string, as handed to `OnlyMatchingMatcher::find`. -/
def litFindIter (pat : List Char) (line : String) : List String :=
  (regexFindAllAux pat line.toList 0 0).map (fun e => String.mk e.2)

/-- Model of the external regex engine's `is_match` for a literal
pattern compiled with `RegexBuilder::case_insensitive(ignoreCase)`
(`src/lib.rs`): the pattern occurs as a contiguous substring, comparing
lowercased characters when `ignoreCase` is set. -/
def occursIn (pat : List Char) : List Char → Bool
  | [] => pat.isEmpty
  | c :: rest => pat.isPrefixOf (c :: rest) || occursIn pat rest

/-- Case folding applied by the modelled engine when the
`case_insensitive` flag is set. -/
def foldCase (ignoreCase : Bool) (s : List Char) : List Char :=
  if ignoreCase then s.map Char.toLower else s

/-- Model of `re.is_match(line)` for a literal pattern `query`, with optional
case-insensitivity (model of the external engine used in `src/lib.rs`). -/
def litIsMatch (ignoreCase : Bool) (query line : String) : Bool :=
  occursIn (foldCase ignoreCase query.toList) (foldCase ignoreCase line.toList)

/-- The `ContextManager` state from `src/search/context.rs`.  The
`before_buffer` `VecDeque` is a list whose head is the deque front
(oldest entry). -/
structure ContextManager where
  before_len : Nat
  after_len : Nat
  before_buffer : List (Nat × String)
  after_countdown : Nat
  last_match_line_num : Nat
  path : String
  deriving Repr, DecidableEq

/-- Embedding of `ContextManager::new` from `src/search/context.rs`. -/
def ContextManager.new (before_len after_len : Nat) (path : String) :
    ContextManager :=
  ⟨before_len, after_len, [], 0, 0, path⟩

/-- Embedding of `ContextManager::handle_match` from `src/search/context.rs`: emit a
group break when context is enabled, a previous match exists and the gap
condition holds; flush the buffered pre-match lines newer than the last
match boundary as `Before` context; clear the buffer; emit the match;
reset the trailing countdown and record this line as the last match.
The sink's returned control signal is discarded (`let _ = ...`), so the
event list is the complete record of the call. -/
def ContextManager.handle_match (cm : ContextManager) (line_num : Nat)
    (match_result : MatchResult) : ContextManager × List SinkEvent :=
  let context_enabled := 0 < cm.before_len || 0 < cm.after_len
  let breakEvs : List SinkEvent :=
    if context_enabled && decide (0 < cm.last_match_line_num) &&
        decide (cm.last_match_line_num + cm.after_len + 1 < line_num) then
      [SinkEvent.contextBreak]
    else
      []
  let beforeEvs : List SinkEvent :=
    (cm.before_buffer.filter (fun e => decide (cm.last_match_line_num < e.1))).map
      (fun e => SinkEvent.context ⟨cm.path, e.1, e.2, ContextKind.Before⟩)
  (⟨cm.before_len, cm.after_len, [], cm.after_len, line_num, cm.path⟩,
   breakEvs ++ beforeEvs ++ [SinkEvent.matched ⟨cm.path, line_num, match_result⟩])

/-- Embedding of `ContextManager::handle_non_match` from `src/search/context.rs`:
while the trailing countdown is positive, emit the line as `After`
context, move the last-match boundary to this line and decrement the
countdown; independently, when `before_len > 0`, push the line into the
leading buffer, evicting the front entry if the buffer is at capacity. -/
def ContextManager.handle_non_match (cm : ContextManager) (line_num : Nat)
    (line_content : String) : ContextManager × List SinkEvent :=
  let afterPart :=
    if 0 < cm.after_countdown then
      ([SinkEvent.context ⟨cm.path, line_num, line_content, ContextKind.After⟩],
       line_num, cm.after_countdown - 1)
    else
      (([] : List SinkEvent), cm.last_match_line_num, cm.after_countdown)
  let buf :=
    if 0 < cm.before_len then
      (if cm.before_buffer.length = cm.before_len then
        cm.before_buffer.tail
      else
        cm.before_buffer) ++ [(line_num, line_content)]
    else
      cm.before_buffer
  (⟨cm.before_len, cm.after_len, buf, afterPart.2.2, afterPart.2.1, cm.path⟩,
   afterPart.1)

/-- One iteration of the line loop of `Searcher::search_stream`
(`src/search/mod.rs`): classify the line with the matcher, route it to
`handle_match` or `handle_non_match`. -/
def stepLine (matcher : String → Option MatchResult) (cm : ContextManager)
    (line_num : Nat) (line_content : String) : ContextManager × List SinkEvent :=
  match matcher line_content with
  | some mr => cm.handle_match line_num mr
  | none => cm.handle_non_match line_num line_content

/-- The line loop of `Searcher::search_stream` over an error-free reader:
process the lines in order with 1-based numbering starting at `line_num`,
threading the context-manager state and concatenating the sink calls. -/
def searchLoop (matcher : String → Option MatchResult) (cm : ContextManager)
    (line_num : Nat) : List String → ContextManager × List SinkEvent
  | [] => (cm, [])
  | l :: ls =>
    let r := stepLine matcher cm line_num l
    let r' := searchLoop matcher r.1 (line_num + 1) ls
    (r'.1, r.2 ++ r'.2)

/-- Embedding of `Searcher::search_stream` from `src/search/mod.rs` over a fallible
reader: each item of `lines` is `Except.ok content` or `Except.error e`
(an `io::Result<String>` from `reader.lines()`).  On the first read
error the `?` operator aborts the stream, returning the error; the sink
calls already made are kept in the trace. -/
def search_stream (matcher : String → Option MatchResult) (cm : ContextManager)
    (line_num : Nat) : List (Except String String) → List SinkEvent × Option String
  | [] => ([], none)
  | Except.error e :: _ => ([], some e)
  | Except.ok l :: ls =>
    let r := stepLine matcher cm line_num l
    let r' := search_stream matcher r.1 (line_num + 1) ls
    (r.2 ++ r'.1, r'.2)

/-- One directory entry as seen by the loop of `Searcher::search_path`
(`src/search/mod.rs`), after the walker yields it: the file may fail to
open (logged, skipped), be skipped silently (non-file entry or binary
content), or open into a sequence of fallible lines. -/
inductive PathEntry where
  | openFail (path err : String)
  | skipped
  | file (path : String) (lines : List (Except String String))
  deriving Repr

/-- The loop of `Searcher::search_path` from `src/search/mod.rs`,
returning the error-channel log lines (`eprintln!`), the sink-call
trace, and the run's result (`none` for `Ok(())`, `some e` when the `?`
on `search_stream` propagates a mid-stream read error, which stops the
loop). -/
def search_path (matcher : String → Option MatchResult)
    (before_len after_len : Nat) :
    List PathEntry → List String × List SinkEvent × Option String
  | [] => ([], [], none)
  | PathEntry.openFail p err :: es =>
    let r := search_path matcher before_len after_len es
    (("Failed to open " ++ p ++ ": " ++ err) :: r.1, r.2)
  | PathEntry.skipped :: es => search_path matcher before_len after_len es
  | PathEntry.file p lines :: es =>
    let r := search_stream matcher (ContextManager.new before_len after_len p) 1 lines
    match r.2 with
    | some e => ([], r.1, some e)
    | none =>
      let r' := search_path matcher before_len after_len es
      (r'.1, r.1 ++ r'.2.1, r'.2.2)

/-- The `HashSet::insert` operation modelled on a duplicate-free list (insertion order
is irrelevant: every reader sorts before printing). -/
def insertPath (l : List String) (p : String) : List String :=
  if p ∈ l then l else l ++ [p]

/-- The `FilesWithMatchesSink` state from `src/output/sinks.rs`. -/
structure FilesWithMatchesSink where
  matched_files : List String
  deriving Repr, DecidableEq

/-- Embedding of `FilesWithMatchesSink::matched`: record the path, signal `Break`. -/
def FilesWithMatchesSink.matched (s : FilesWithMatchesSink)
    (data : MatchedLine) : FilesWithMatchesSink × ControlFlow :=
  (⟨insertPath s.matched_files data.path⟩, ControlFlow.Break)

/-- Run the `FilesWithMatchesSink` over a sink-call trace, returning the
final state and the control signal returned by each `matched` call, in
call order.  `context` and `context_break` use the trait defaults and
return `Continue` without touching the state. -/
def FilesWithMatchesSink.run (s : FilesWithMatchesSink) :
    List SinkEvent → FilesWithMatchesSink × List ControlFlow
  | [] => (s, [])
  | SinkEvent.matched m :: evs =>
    let r := s.matched m
    let r' := r.1.run evs
    (r'.1, r.2 :: r'.2)
  | _ :: evs => s.run evs

/-- The `CountSink` state from `src/output/sinks.rs`: the `HashMap` is
modelled as a key-distinct association list (order irrelevant: `finish`
sorts the keys before printing). -/
structure CountSink where
  counts : List (String × Nat)
  deriving Repr, DecidableEq

/-- The update `self.counts.entry(path).or_insert(0); *count += 1` on the
association list. -/
def bumpCount : List (String × Nat) → String → List (String × Nat)
  | [], p => [(p, 1)]
  | (q, c) :: rest, p =>
    if q = p then (q, c + 1) :: rest else (q, c) :: bumpCount rest p

/-- Embedding of `CountSink::matched`: one increment for the matched line's path,
regardless of the match result; signal `Continue`. -/
def CountSink.matched (s : CountSink) (data : MatchedLine) :
    CountSink × ControlFlow :=
  (⟨bumpCount s.counts data.path⟩, ControlFlow.Continue)

/-- Run the `CountSink` over a sink-call trace (`context` and
`context_break` use the no-op trait defaults). -/
def CountSink.run (s : CountSink) : List SinkEvent → CountSink
  | [] => s
  | SinkEvent.matched m :: evs => ((s.matched m).1).run evs
  | _ :: evs => s.run evs

/-- Lexicographic comparison of character lists by character code. -/
def lexLe : List Char → List Char → Bool
  | [], _ => true
  | _ :: _, [] => false
  | x :: xs, y :: ys => if x = y then lexLe xs ys else decide (x < y)

/-- Lexicographic comparison of paths by character code: the model of
the ordering used by `Vec::sort` on `PathBuf`s. -/
def pathLe (a b : String) : Bool :=
  lexLe a.toList b.toList

/-- One insertion step of the stable sort modelling `Vec::sort`. -/
def orderedInsertPath (x : String) : List String → List String
  | [] => [x]
  | y :: ys => if pathLe x y then x :: y :: ys else y :: orderedInsertPath x ys

/-- The stable sort modelling `Vec::sort` on paths (`sorted_paths.sort()`
and the analogous calls in `src/output/sinks.rs`). -/
def sortPaths : List String → List String
  | [] => []
  | x :: xs => orderedInsertPath x (sortPaths xs)

/-- Embedding of `CountSink::finish` from `src/output/sinks.rs`: print one
`path:count` line per recorded path in sorted key order, accumulating
the total, then a `Total` line exactly when more than one path was
recorded.  Output is modelled as the list of printed lines. -/
def CountSink.finish (s : CountSink) : List String :=
  let sorted_paths := sortPaths (s.counts.map Prod.fst)
  let body := sorted_paths.filterMap
    (fun p => (s.counts.lookup p).map (fun c => p ++ ":" ++ toString c))
  let total := (sorted_paths.filterMap (fun p => s.counts.lookup p)).sum
  let print_total := 1 < s.counts.length
  body ++ (if print_total then ["Total: " ++ toString total] else [])

/-- Model of `SearchOption` from `src/config.rs`. -/
structure SearchOption where
  ignore_case : Bool
  invert_match : Bool
  only_matching : Bool
  deriving Repr, DecidableEq

/-- Model of `OutputOption` from `src/config.rs`. -/
structure OutputOption where
  after_context : Nat
  before_context : Nat
  context : Nat
  line_number : Bool
  deriving Repr, DecidableEq

/-- Model of `Config` from `src/config.rs` (the clap-derived argument struct;
the output-mode flag group is not needed by the formatter). -/
structure Config where
  query : String
  path : Option String
  search : SearchOption
  output : OutputOption
  deriving Repr, DecidableEq

/-- Embedding of `OutputFormatter::format_prefix` from `src/output/formatter.rs`.
`isDir` stands for the external `Path::is_dir` filesystem predicate;
terminal colouring (`cyan`, `green`) is a pass-through collaborator,
modelled as the identity.  Note the function reads only `config.path`;
no field of `config.output` is consulted. -/
def formatPrefix (isDir : String → Bool) (config : Config)
    (file_path : String) (line_number : Nat)
    (context_kind : Option ContextKind) : String :=
  let is_multi_file_context := (config.path.map isDir).getD false
  let pathPart := if is_multi_file_context then file_path ++ ":" else ""
  let separator := match context_kind with
    | some _ => "-"
    | none => ":"
  pathPart ++ (toString line_number ++ separator)

/-- Pair each list element with its 1-based line number starting at `n`
(the `enumerate` + `i + 1` numbering of the search loops). -/
def numberFrom (n : Nat) : List String → List (Nat × String)
  | [] => []
  | l :: ls => (n, l) :: numberFrom (n + 1) ls

/-- Model of `Match` from `src/lib.rs` (the historical whole-buffer search). -/
structure LibMatch where
  line_number : Nat
  content : String
  deriving Repr, DecidableEq

/-- Embedding of `search` from `src/lib.rs`: build a literal regex with the
case-insensitivity flag (modelled by `litIsMatch`), keep the lines whose
match test, after applying `invert_match`, is positive, with 1-based
line numbers. -/
def search (query : String) (contents : List String)
    (ignore_case invert_match : Bool) : List LibMatch :=
  ((numberFrom 1 contents).filter
    (fun e =>
      if invert_match then !litIsMatch ignore_case query e.2
      else litIsMatch ignore_case query e.2)).map
    (fun e => ⟨e.1, e.2⟩)

/-- Line numbers of the `matched` calls of a sink-call trace, in call
order. -/
def matchedLines (evs : List SinkEvent) : List Nat :=
  evs.filterMap (fun e =>
    match e with
    | SinkEvent.matched m => some m.lineNumber
    | _ => none)

/-- Number of group-break markers in a sink-call trace. -/
def breakCount (evs : List SinkEvent) : Nat :=
  evs.countP (fun e => e = SinkEvent.contextBreak)

/-- The `(line number, content)` pairs of the `Before`-context calls of
a sink-call trace, in call order. -/
def beforeContexts (evs : List SinkEvent) : List (Nat × String) :=
  evs.filterMap (fun e =>
    match e with
    | SinkEvent.context c =>
      if c.kind = ContextKind.Before then some (c.lineNumber, c.content) else none
    | _ => none)

/-- Paths of the `matched` calls of a sink-call trace, in call order. -/
def matchedPaths (evs : List SinkEvent) : List String :=
  evs.filterMap (fun e =>
    match e with
    | SinkEvent.matched m => some m.path
    | _ => none)

/-- The count recorded for `p`, zero if absent: `(l.lookup p).getD 0`. -/
def lookupCount (l : List (String × Nat)) (p : String) : Nat :=
  (l.lookup p).getD 0

/-- Transcription of the spec's group-break property (spec §8, claim
C1): the number of break markers the spec demands between successive
matches at `N1 < N2` with trailing length `A`. -/
def specC1Breaks (N1 N2 A : Nat) : Nat :=
  if N1 + A + 1 < N2 then 1 else 0

/-- Transcription of the spec's leading-context property (spec §8,
claim C4): the lines the spec demands as leading context for a match at
`N` with before-length `B`, given the lines already emitted as trailing
context — lines `N-B` through `N-1` that exist (are ≥ 1) and are not
among the trailing-emitted ones. -/
def specC4LeadingLines (B N : Nat) (trailingEmitted : List Nat) : List Nat :=
  (List.range' (max 1 (N - B)) (N - max 1 (N - B))).filter
    (fun x => decide (x ∉ trailingEmitted))

end Minigrep

namespace Minigrep

/-! ### Helper lemmas -/

theorem length_numberFrom (n : Nat) (ls : List String) :
    (numberFrom n ls).length = ls.length := by
  induction ls generalizing n with
  | nil => rfl
  | cons l ls ih => simp [numberFrom, ih]

theorem numberFrom_drop (d : Nat) (n : Nat) (ls : List String) :
    (numberFrom n ls).drop d = numberFrom (n + d) (ls.drop d) := by
  induction ls generalizing n d with
  | nil => simp [numberFrom]
  | cons l ls ih =>
    cases d with
    | zero => simp [numberFrom]
    | succ d =>
      simp only [numberFrom, List.drop_succ_cons, ih]
      congr 1
      omega

theorem filter_numberFrom_gt (bd : Nat) (a : Nat) (xs : List String) :
    (numberFrom a xs).filter (fun e => decide (bd < e.1))
      = numberFrom (max a (bd + 1)) (xs.drop (bd + 1 - a)) := by
  induction xs generalizing a with
  | nil => simp [numberFrom]
  | cons x xs ih =>
    by_cases h : bd < a
    · have h0 : bd + 1 - a = 0 := by omega
      have hm : max a (bd + 1) = a := by omega
      simp only [numberFrom, List.filter_cons, decide_eq_true_eq, h, if_true, h0,
        List.drop_zero, hm, ih]
      have h1 : bd + 1 - (a + 1) = 0 := by omega
      have hm1 : max (a + 1) (bd + 1) = a + 1 := by omega
      simp [h1, hm1, numberFrom]
    · have hm : max a (bd + 1) = max (a + 1) (bd + 1) := by omega
      have hd : (x :: xs).drop (bd + 1 - a) = xs.drop (bd + 1 - (a + 1)) := by
        have : bd + 1 - a = (bd + 1 - (a + 1)) + 1 := by omega
        simp [this]
      simp only [numberFrom, List.filter_cons, decide_eq_true_eq, h, if_false, ih,
        hm, hd]

theorem matchedLines_append (u v : List SinkEvent) :
    matchedLines (u ++ v) = matchedLines u ++ matchedLines v := by
  simp [matchedLines, List.filterMap_append]

theorem breakCount_append (u v : List SinkEvent) :
    breakCount (u ++ v) = breakCount u + breakCount v := by
  simp [breakCount, List.countP_append]

theorem beforeContexts_append (u v : List SinkEvent) :
    beforeContexts (u ++ v) = beforeContexts u ++ beforeContexts v := by
  simp [beforeContexts, List.filterMap_append]

theorem matchedLines_handle_match (cm : ContextManager) (n : Nat)
    (mr : MatchResult) : matchedLines (cm.handle_match n mr).2 = [n] := by
  simp only [ContextManager.handle_match, matchedLines]
  split <;> simp [List.filterMap_append, List.filterMap_map, Function.comp]

theorem matchedLines_handle_non_match (cm : ContextManager) (n : Nat)
    (c : String) : matchedLines (cm.handle_non_match n c).2 = [] := by
  simp only [ContextManager.handle_non_match, matchedLines]
  split <;> simp

theorem breakCount_handle_non_match (cm : ContextManager) (n : Nat)
    (c : String) : breakCount (cm.handle_non_match n c).2 = 0 := by
  simp only [ContextManager.handle_non_match, breakCount]
  split <;> simp

theorem breakCount_handle_match (cm : ContextManager) (n : Nat)
    (mr : MatchResult) :
    breakCount (cm.handle_match n mr).2 =
      if (0 < cm.before_len ∨ 0 < cm.after_len) ∧ 0 < cm.last_match_line_num ∧
          cm.last_match_line_num + cm.after_len + 1 < n then 1 else 0 := by
  simp only [ContextManager.handle_match, breakCount, List.countP_append]
  have hb : List.countP (fun e => decide (e = SinkEvent.contextBreak))
      ((cm.before_buffer.filter (fun e => decide (cm.last_match_line_num < e.1))).map
        (fun e => SinkEvent.context ⟨cm.path, e.1, e.2, ContextKind.Before⟩)) = 0 := by
    simp [List.countP_map, List.countP_eq_zero, Function.comp]
  rw [hb]
  split
  · rename_i h
    simp only [Bool.and_eq_true, Bool.or_eq_true, decide_eq_true_eq] at h
    rw [if_pos]
    · simp
    · exact ⟨h.1.1, h.1.2, h.2⟩
  · rename_i h
    simp only [Bool.and_eq_true, Bool.or_eq_true, decide_eq_true_eq] at h
    rw [if_neg]
    · simp
    · intro hc
      exact h ⟨⟨hc.1, hc.2.1⟩, hc.2.2⟩

theorem beforeContexts_map_before (p : String) (l : List (Nat × String)) :
    beforeContexts (l.map
      (fun e => SinkEvent.context ⟨p, e.1, e.2, ContextKind.Before⟩)) = l := by
  induction l with
  | nil => rfl
  | cons e l ih => simp only [List.map_cons, beforeContexts, List.filterMap_cons] at ih ⊢; simp [ih]

theorem beforeContexts_handle_match (cm : ContextManager) (n : Nat)
    (mr : MatchResult) :
    beforeContexts (cm.handle_match n mr).2 =
      cm.before_buffer.filter (fun e => decide (cm.last_match_line_num < e.1)) := by
  simp only [ContextManager.handle_match]
  rw [beforeContexts_append, beforeContexts_append]
  have h1 : beforeContexts [SinkEvent.matched ⟨cm.path, n, mr⟩] = [] := rfl
  rw [h1, beforeContexts_map_before]
  split <;> simp [beforeContexts]

theorem searchLoop_nonmatch (matcher : String → Option MatchResult)
    (B A : Nat) (p : String) (ws : List String) :
    ∀ (q : List (Nat × String)) (cd M n : Nat),
    q.length ≤ B → (∀ w ∈ ws, matcher w = none) →
    searchLoop matcher ⟨B, A, q, cd, M, p⟩ n ws =
      (⟨B, A, (q ++ numberFrom n ws).drop (q.length + ws.length - B),
        cd - ws.length,
        if min cd ws.length = 0 then M else n + (min cd ws.length - 1), p⟩,
       (numberFrom n (ws.take cd)).map
         (fun e => SinkEvent.context ⟨p, e.1, e.2, ContextKind.After⟩)) := by
  induction ws with
  | nil =>
    intro q cd M n hq _
    have h0 : q.length - B = 0 := by omega
    simp [searchLoop, numberFrom, h0]
  | cons w ws ih =>
    intro q cd M n hq hg
    have hmw : matcher w = none := hg w (List.mem_cons_self w ws)
    have hg' : ∀ x ∈ ws, matcher x = none := fun x hx => hg x (List.mem_cons_of_mem w hx)
    simp only [searchLoop, stepLine, hmw]
    have hstep : (ContextManager.handle_non_match ⟨B, A, q, cd, M, p⟩ n w) =
        (⟨B, A,
          (if 0 < B then (if q.length = B then q.tail else q) ++ [(n, w)] else q),
          (if 0 < cd then cd - 1 else cd),
          (if 0 < cd then n else M), p⟩,
         if 0 < cd then
          [SinkEvent.context ⟨p, n, w, ContextKind.After⟩]
         else []) := by
      simp only [ContextManager.handle_non_match]
      by_cases h : 0 < cd <;> simp [h]
    rw [hstep]
    set buf1 := (if 0 < B then
        (if q.length = B then q.tail else q) ++ [(n, w)] else q) with hbuf1
    have hbl : buf1.length ≤ B := by
      rw [hbuf1]
      by_cases hB : 0 < B
      · by_cases hqB : q.length = B
        · rw [if_pos hB, if_pos hqB]
          simp [List.length_tail]
          omega
        · rw [if_pos hB, if_neg hqB]
          simp
          omega
      · rw [if_neg hB]; exact hq
    rw [ih buf1 (if 0 < cd then cd - 1 else cd) (if 0 < cd then n else M) (n + 1) hbl hg']
    have hstate :
        ((buf1 ++ numberFrom (n + 1) ws).drop (buf1.length + ws.length - B)
          = (q ++ numberFrom n (w :: ws)).drop (q.length + (w :: ws).length - B)) := by
      rw [hbuf1]
      by_cases hB : 0 < B
      · by_cases hqB : q.length = B
        · rw [if_pos hB, if_pos hqB]
          have hqn : q ≠ [] := by
            intro hc; rw [hc] at hqB; simp at hqB; omega
          have hlen : (q.tail ++ [(n, w)]).length = B := by
            simp [List.length_tail]; omega
          rw [hlen]
          have hidx : B + ws.length - B = ws.length := by omega
          have hidx2 : q.length + (w :: ws).length - B = ws.length + 1 := by
            simp only [List.length_cons]; omega
          rw [hidx, hidx2]
          have hq1 : 1 ≤ q.length := by omega
          have htail : (q ++ ((n, w) :: numberFrom (n + 1) ws)).drop 1
              = q.tail ++ ((n, w) :: numberFrom (n + 1) ws) := by
            rw [List.drop_append_of_le_length hq1]
            simp [List.drop_one]
          calc (q.tail ++ [(n, w)] ++ numberFrom (n + 1) ws).drop ws.length
              = (q.tail ++ ((n, w) :: numberFrom (n + 1) ws)).drop ws.length := by
                simp
            _ = ((q ++ ((n, w) :: numberFrom (n + 1) ws)).drop 1).drop ws.length := by
                rw [htail]
            _ = (q ++ ((n, w) :: numberFrom (n + 1) ws)).drop (1 + ws.length) := by
                rw [List.drop_drop]
            _ = (q ++ numberFrom n (w :: ws)).drop (ws.length + 1) := by
                rw [Nat.add_comm]
                rfl
        · rw [if_pos hB, if_neg hqB]
          have hc1 : q ++ [(n, w)] ++ numberFrom (n + 1) ws
              = q ++ numberFrom n (w :: ws) := by
            rw [List.append_assoc]
            rfl
          have hidx3 : (q ++ [(n, w)]).length + ws.length - B
              = q.length + (w :: ws).length - B := by
            simp only [List.length_append, List.length_cons, List.length_nil]
            omega
          rw [hc1, hidx3]
      · rw [if_neg hB]
        have hB0 : B = 0 := by omega
        have hq0 : q = [] := List.length_eq_zero.mp (by omega)
        subst hq0 hB0
        simp only [List.nil_append, List.length_nil, Nat.zero_add, Nat.sub_zero]
        rw [List.drop_of_length_le (le_of_eq (length_numberFrom (n + 1) ws)),
          List.drop_of_length_le (by simp [length_numberFrom])]
    have hcd2 : (if 0 < cd then cd - 1 else cd) - ws.length = cd - (w :: ws).length := by
      by_cases h : 0 < cd
      · rw [if_pos h]; simp only [List.length_cons]; omega
      · rw [if_neg h]; simp only [List.length_cons]; omega
    have hlast :
        (if min (if 0 < cd then cd - 1 else cd) ws.length = 0
          then (if 0 < cd then n else M)
          else (n + 1) + (min (if 0 < cd then cd - 1 else cd) ws.length - 1))
        = (if min cd (w :: ws).length = 0 then M
          else n + (min cd (w :: ws).length - 1)) := by
      simp only [List.length_cons]
      by_cases h : 0 < cd
      · rw [if_pos h, if_pos h]
        have hmin : min cd (ws.length + 1) = min (cd - 1) ws.length + 1 := by omega
        rw [hmin]
        by_cases h2 : min (cd - 1) ws.length = 0
        · rw [if_pos h2, if_neg (by omega)]
          omega
        · rw [if_neg h2, if_neg (by omega)]
          omega
      · have hcd0 : cd = 0 := by omega
        subst hcd0
        simp
    have hevs :
        (if 0 < cd then [SinkEvent.context ⟨p, n, w, ContextKind.After⟩] else [])
          ++ (numberFrom (n + 1) (ws.take (if 0 < cd then cd - 1 else cd))).map
              (fun e => SinkEvent.context ⟨p, e.1, e.2, ContextKind.After⟩)
        = (numberFrom n ((w :: ws).take cd)).map
            (fun e => SinkEvent.context ⟨p, e.1, e.2, ContextKind.After⟩) := by
      by_cases h : 0 < cd
      · obtain ⟨c, rfl⟩ : ∃ c, cd = c + 1 := ⟨cd - 1, by omega⟩
        rw [if_pos h, if_pos h]
        simp [numberFrom]
      · have hcd0 : cd = 0 := by omega
        subst hcd0
        simp [numberFrom]
    rw [hstate, hcd2, hlast, hevs]

theorem searchLoop_preserves (matcher : String → Option MatchResult)
    (ls : List String) :
    ∀ (cm : ContextManager) (n : Nat),
      (searchLoop matcher cm n ls).1.before_len = cm.before_len ∧
      (searchLoop matcher cm n ls).1.after_len = cm.after_len ∧
      (searchLoop matcher cm n ls).1.path = cm.path := by
  induction ls with
  | nil => intro cm n; exact ⟨rfl, rfl, rfl⟩
  | cons l ls ih =>
    intro cm n
    have hs : ∀ (r : ContextManager × List SinkEvent),
        r = stepLine matcher cm n l →
        r.1.before_len = cm.before_len ∧ r.1.after_len = cm.after_len ∧
        r.1.path = cm.path := by
      intro r hr
      cases hm : matcher l <;>
        simp [stepLine, hm, ContextManager.handle_match,
          ContextManager.handle_non_match] at hr <;>
        subst hr <;> exact ⟨rfl, rfl, rfl⟩
    have h1 := hs (stepLine matcher cm n l) rfl
    have h2 := ih (stepLine matcher cm n l).1 (n + 1)
    simp only [searchLoop]
    exact ⟨h2.1.trans h1.1, h2.2.1.trans h1.2.1, h2.2.2.trans h1.2.2⟩

theorem breakCount_map_context (p : String) (k : ContextKind)
    (l : List (Nat × String)) :
    breakCount (l.map (fun e => SinkEvent.context ⟨p, e.1, e.2, k⟩)) = 0 := by
  simp [breakCount, List.countP_map, Function.comp, List.countP_eq_zero]

/-! ### Claim theorems -/

/-- C5: for every line `L`, compiled pattern `P` (modelled by its
`is_match` predicate) and invert flag, `DefaultMatcher::find` returns
the whole-line outcome `Line L` iff `P.is_match(L) xor invert` is true,
and returns `none` otherwise. -/
theorem default_matcher_whole_line_iff (isMatch : String → Bool)
    (invert : Bool) (L : String) :
    (DefaultMatcher.find isMatch invert L = some (MatchResult.Line L)
      ↔ xor (isMatch L) invert = true)
    ∧ (DefaultMatcher.find isMatch invert L = none
      ↔ xor (isMatch L) invert = false) := by
  cases h : isMatch L <;> cases invert <;> simp [DefaultMatcher.find, h]

/-- C10: `OutputFormatter::format_prefix` never reads the
`line_number` flag: two configurations that differ only in that flag
produce the identical prefix, and the prefix always contains the line
number.  (The flag is accepted by the argument parser but has no
observable effect on `format_prefix`.) -/
theorem formatPrefix_ignores_line_number_flag (isDir : String → Bool)
    (c : Config) (b : Bool) (fp : String) (n : Nat) (k : Option ContextKind) :
    formatPrefix isDir { c with output := { c.output with line_number := b } } fp n k
      = formatPrefix isDir c fp n k
    ∧ ∃ pre post, formatPrefix isDir c fp n k = pre ++ (toString n ++ post) := by
  exact ⟨rfl, _, _, rfl⟩

/-- C2 (amended): the control signal returned by the sink's `matched`
call is discarded by the context manager (`let _ = ...` in
`src/search/context.rs`), so the search loop never stops early: every
line of the stream is classified by the matcher, and every matching
line — identified by its position in the stream — is delivered to the
sink, whatever the sink's signals. -/
theorem searcher_scans_all_lines (matcher : String → Option MatchResult)
    (ls : List String) :
    ∀ (cm : ContextManager) (n : Nat),
    matchedLines (searchLoop matcher cm n ls).2
      = (numberFrom n ls).filterMap
          (fun e => if (matcher e.2).isSome then some e.1 else none) := by
  induction ls with
  | nil => intro cm n; rfl
  | cons l ls ih =>
    intro cm n
    simp only [searchLoop, numberFrom, List.filterMap_cons]
    rw [matchedLines_append]
    cases hm : matcher l with
    | some mr =>
      simp only [stepLine, hm, matchedLines_handle_match, ih]
      simp
    | none =>
      simp only [stepLine, hm, matchedLines_handle_non_match, ih]
      simp

/-- C2 counterexample: with the `FilesWithMatches` sink on a two-line
stream whose lines both match, the first `matched` call returns `Break`,
yet the second line is still classified and delivered to the sink
(`matchedLines` records both lines), contradicting the claim that the
caller stops scanning the file's remaining lines. -/
theorem files_with_matches_break_ignored_cex :
    (FilesWithMatchesSink.run ⟨[]⟩
      (searchLoop (fun l => if l = "m" then some (MatchResult.Line l) else none)
        (ContextManager.new 0 0 "p") 1 ["m", "m"]).2).2
      = [ControlFlow.Break, ControlFlow.Break]
    ∧ matchedLines
        (searchLoop (fun l => if l = "m" then some (MatchResult.Line l) else none)
          (ContextManager.new 0 0 "p") 1 ["m", "m"]).2
      = [1, 2] := by
  exact ⟨rfl, rfl⟩

/-- C1 (amended): for any stream state, after a match at line `N1 ≥ 1`
followed by a gap of non-matching lines and then a match at line
`N2 = N1 + gap + 1`, the events emitted between the two `matched` calls
contain exactly one group-break marker iff context is enabled and
`N2 > N1 + 2*A + 1` (where `A` is the trailing-context length), and
zero otherwise.  (The spec's threshold `N2 > N1 + A + 1` is wrong: the
code compares against the boundary advanced by emitted trailing-context
lines, see `handle_non_match`; for a maximal trailing window this gives
`N1 + 2*A + 1`.) -/
theorem group_break_between_matches (matcher : String → Option MatchResult)
    (s : ContextManager) (N1 : Nat) (gap : List String) (mr1 : MatchResult)
    (l2 : String) (mr2 : MatchResult)
    (h1 : 0 < N1) (hg : ∀ w ∈ gap, matcher w = none)
    (hm2 : matcher l2 = some mr2) :
    breakCount (searchLoop matcher (s.handle_match N1 mr1).1 (N1 + 1) gap).2
      + breakCount (stepLine matcher
          (searchLoop matcher (s.handle_match N1 mr1).1 (N1 + 1) gap).1
          (N1 + gap.length + 1) l2).2
    = if (0 < s.before_len ∨ 0 < s.after_len)
        ∧ N1 + 2 * s.after_len + 1 < N1 + gap.length + 1 then 1 else 0 := by
  have hs1 : (s.handle_match N1 mr1).1
      = ⟨s.before_len, s.after_len, [], s.after_len, N1, s.path⟩ := rfl
  rw [hs1, searchLoop_nonmatch matcher s.before_len s.after_len s.path gap []
    s.after_len N1 (N1 + 1) (by simp) hg]
  rw [breakCount_map_context]
  simp only [stepLine, hm2]
  rw [breakCount_handle_match]
  simp only [Nat.zero_add]
  split_ifs <;> first | rfl | (rename_i ha hb; exfalso; omega)

/-- Witness for C1's theorem: a concrete run (`A = 1`, matches at lines
1 and 5) in which the gap exceeds `2*A + 1` and exactly one break is
emitted. -/
theorem group_break_between_matches_witness :
    breakCount (searchLoop (fun l => if l = "m" then some (MatchResult.Line l) else none)
        ((ContextManager.new 0 1 "p").handle_match 1 (MatchResult.Line "m")).1 2
        ["x", "y", "z"]).2
      + breakCount (stepLine (fun l => if l = "m" then some (MatchResult.Line l) else none)
          (searchLoop (fun l => if l = "m" then some (MatchResult.Line l) else none)
            ((ContextManager.new 0 1 "p").handle_match 1 (MatchResult.Line "m")).1 2
            ["x", "y", "z"]).1 5 "m").2
      = 1 := by
  have h := group_break_between_matches
    (fun l => if l = "m" then some (MatchResult.Line l) else none)
    (ContextManager.new 0 1 "p") 1 ["x", "y", "z"]
    (MatchResult.Line "m") "m" (MatchResult.Line "m")
    (by decide) (by decide) rfl
  exact h.trans (by decide)

/-- C1 counterexample: `A = 1`, matches at lines 1 and 4
(`N2 = 4 > N1 + A + 1 = 3`), so the spec demands one break marker, but
the code emits none: after the trailing-context line 2 the boundary is
2, and `4 > 2 + 1 + 1` fails. -/
theorem group_break_spec_cex :
    matchedLines (searchLoop (fun l => if l = "m" then some (MatchResult.Line l) else none)
        (ContextManager.new 0 1 "p") 1 ["m", "x", "y", "m"]).2 = [1, 4]
    ∧ breakCount (searchLoop (fun l => if l = "m" then some (MatchResult.Line l) else none)
        (ContextManager.new 0 1 "p") 1 ["m", "x", "y", "m"]).2 = 0
    ∧ specC1Breaks 1 4 1 = 1 := by
  exact ⟨rfl, rfl, rfl⟩

/-- C9: the leading-context buffer is a bounded FIFO.  (1) One
unmatched line pushes at most one entry (none when `B = 0`), evicting
the front entry when the buffer is at capacity `B`; (2) after any run
of unmatched lines the buffer holds exactly the most recent at-most-`B`
`(line number, content)` pairs — the suffix of the previous contents
extended with the new lines; (3) the buffer never exceeds `B` entries;
(4) `handle_match` empties the buffer. -/
theorem before_buffer_fifo (matcher : String → Option MatchResult)
    (B A cd M n lnum : Nat) (p : String) (q : List (Nat × String))
    (ws : List String) (c : String) (mr : MatchResult)
    (hq : q.length ≤ B) (hg : ∀ w ∈ ws, matcher w = none) :
    ((ContextManager.mk B A q cd M p).handle_non_match lnum c).1.before_buffer
        = (if 0 < B then (if q.length = B then q.tail else q) ++ [(lnum, c)] else q)
    ∧ (searchLoop matcher ⟨B, A, q, cd, M, p⟩ n ws).1.before_buffer
        = (q ++ numberFrom n ws).drop (q.length + ws.length - B)
    ∧ (searchLoop matcher ⟨B, A, q, cd, M, p⟩ n ws).1.before_buffer.length ≤ B
    ∧ ((ContextManager.mk B A q cd M p).handle_match lnum mr).1.before_buffer = [] := by
  refine ⟨rfl, ?_, ?_, rfl⟩
  · rw [searchLoop_nonmatch matcher B A p ws q cd M n hq hg]
  · rw [searchLoop_nonmatch matcher B A p ws q cd M n hq hg]
    simp only [List.length_drop, List.length_append, length_numberFrom]
    omega

/-- Witness for C9's theorem: a full buffer `[(1,"a"),(2,"b")]` with
`B = 2` slides over two more unmatched lines, and a match clears it. -/
theorem before_buffer_fifo_witness :
    (searchLoop (fun l => if l = "m" then some (MatchResult.Line l) else none)
        ⟨2, 0, [(1, "a"), (2, "b")], 0, 0, "p"⟩ 3 ["x", "y"]).1.before_buffer
      = [(3, "x"), (4, "y")]
    ∧ (searchLoop (fun l => if l = "m" then some (MatchResult.Line l) else none)
        ⟨2, 0, [(1, "a"), (2, "b")], 0, 0, "p"⟩ 3 ["x", "y"]).1.before_buffer.length ≤ 2
    ∧ ((ContextManager.mk 2 0 [(1, "a"), (2, "b")] 0 0 "p").handle_match 5
        (MatchResult.Line "m")).1.before_buffer = [] := by
  have h := before_buffer_fifo
    (fun l => if l = "m" then some (MatchResult.Line l) else none)
    2 0 0 0 3 5 "p" [(1, "a"), (2, "b")] ["x", "y"] "u" (MatchResult.Line "m")
    (by decide) (by decide)
  exact ⟨h.2.1.trans (by decide), h.2.2.1, h.2.2.2⟩

/-- C4 (amended): consider a match at line `N = n + gap` reached after
a run of non-matching lines numbered `n, ..., N-1` from an
epoch-starting state (empty buffer; when `B > 0` such a state only
arises at stream start or immediately after a match at line `M = n-1`,
with `cd0` trailing lines still pending).  The leading (`Before`)
context emitted for that match consists of exactly the lines numbered
`max (bd+1) (N-B)` through `N-1`, in ascending order with their
contents, where `bd = M + min cd0 gap` is the last previously output
match or trailing-context line.  Equivalently: exactly the lines of
`[N-B, N-1]` that exist, are not matches, and were not already emitted
as trailing context — the spec's claim must additionally exclude lines
already output as a match or as leading context for an earlier match. -/
theorem leading_context_flush (matcher : String → Option MatchResult)
    (B A cd0 M n : Nat) (p : String) (gap : List String) (l : String)
    (mr : MatchResult)
    (hn : 0 < B → n = M + 1)
    (hg : ∀ w ∈ gap, matcher w = none) (hm : matcher l = some mr) :
    beforeContexts (stepLine matcher
        (searchLoop matcher ⟨B, A, [], cd0, M, p⟩ n gap).1
        (n + gap.length) l).2
      = numberFrom (max (M + min cd0 gap.length + 1) (n + gap.length - B))
          (gap.drop
            (max (M + min cd0 gap.length + 1) (n + gap.length - B) - n)) := by
  rw [searchLoop_nonmatch matcher B A p gap [] cd0 M n (by simp) hg]
  simp only [stepLine, hm]
  rw [beforeContexts_handle_match]
  dsimp only
  simp only [List.nil_append, List.length_nil, Nat.zero_add]
  by_cases hB : 0 < B
  · have hn1 : n = M + 1 := hn hB
    subst hn1
    have hbd : (if min cd0 gap.length = 0 then M
        else M + 1 + (min cd0 gap.length - 1)) = M + min cd0 gap.length := by
      by_cases hmin : min cd0 gap.length = 0
      · rw [if_pos hmin]; omega
      · rw [if_neg hmin]; omega
    simp only [hbd]
    rw [numberFrom_drop, filter_numberFrom_gt, List.drop_drop]
    congr 1
    · omega
    · congr 1
      omega
  · have hB0 : B = 0 := by omega
    subst hB0
    rw [Nat.sub_zero, List.drop_of_length_le (le_of_eq (length_numberFrom n gap))]
    rw [List.drop_of_length_le (by omega)]
    simp [numberFrom]

/-- Witness for C4's theorem: `B = 1`, `A = 0`, first match at line 3
after non-matching lines 1 and 2; only line 2 (the most recent
unmatched line) is flushed as leading context. -/
theorem leading_context_flush_witness :
    (0 < 1 → 1 = 0 + 1)
    ∧ beforeContexts (stepLine (fun l => if l = "m" then some (MatchResult.Line l) else none)
        (searchLoop (fun l => if l = "m" then some (MatchResult.Line l) else none)
          ⟨1, 0, [], 0, 0, "p"⟩ 1 ["u", "v"]).1 3 "m").2
      = [(2, "v")] := by
  have h := leading_context_flush
    (fun l => if l = "m" then some (MatchResult.Line l) else none)
    1 0 0 0 1 "p" ["u", "v"] "m" (MatchResult.Line "m")
    (fun _ => rfl) (by decide) rfl
  exact ⟨fun _ => rfl, h.trans (by decide)⟩

/-- C4 counterexample: `B = 1`, `A = 0`, both lines of `["m","m"]`
match.  For the match at line 2 the spec's description demands leading
context `{1}` (line 1 exists and was never emitted as trailing
context), but the code emits no `Before` context at all in the whole
run: line 1 was itself a match, so the buffer was empty. -/
theorem leading_context_spec_cex :
    beforeContexts (searchLoop (fun l => if l = "m" then some (MatchResult.Line l) else none)
        (ContextManager.new 1 0 "p") 1 ["m", "m"]).2 = []
    ∧ specC4LeadingLines 1 2 [] = [1] := by
  exact ⟨rfl, by decide⟩

/-- C3 (amended): when reading a line of an already-opened file fails
mid-stream, the `?` in `search_stream`/`search_path` propagates the
error: nothing is logged to the error channel for it, the remaining
files are not searched, and the run aborts with the error (rather than
skipping the file and completing successfully). -/
theorem read_error_aborts_run (matcher : String → Option MatchResult)
    (B A : Nat) (p : String) (lines : List (Except String String))
    (es : List PathEntry) (e : String)
    (he : (search_stream matcher (ContextManager.new B A p) 1 lines).2 = some e) :
    search_path matcher B A (PathEntry.file p lines :: es)
      = ([], (search_stream matcher (ContextManager.new B A p) 1 lines).1,
         some e) := by
  simp only [search_path, he]

/-- Witness for C3's theorem: a file whose first read fails, followed
by a second file with a match; the run aborts before reaching it. -/
theorem read_error_aborts_run_witness :
    search_path (fun l => if l = "m" then some (MatchResult.Line l) else none) 0 0
      [PathEntry.file "a" [Except.error "boom"], PathEntry.file "b" [Except.ok "m"]]
      = ([], (search_stream (fun l => if l = "m" then some (MatchResult.Line l) else none)
          (ContextManager.new 0 0 "a") 1 [Except.error "boom"]).1, some "boom") :=
  read_error_aborts_run
    (fun l => if l = "m" then some (MatchResult.Line l) else none)
    0 0 "a" [Except.error "boom"] [PathEntry.file "b" [Except.ok "m"]] "boom" rfl

/-- C3 counterexample: file `a` fails mid-stream (after one good line),
file `b` would match.  The run returns the error (`some "disk"`), logs
nothing to the error channel, and delivers no event for file `b` — the
claim demanded a logged error, a skip, and a successful completion. -/
theorem read_error_spec_cex :
    search_path (fun l => if l = "m" then some (MatchResult.Line l) else none) 0 0
      [PathEntry.file "a" [Except.ok "x", Except.error "disk"],
       PathEntry.file "b" [Except.ok "m"]]
      = ([], [], some "disk")
    ∧ (some "disk" : Option String) ≠ none := by
  exact ⟨rfl, by decide⟩

/-- C8 (amended): on the four-line input ending in `"Duct tape."`, the
case-insensitive literal pattern `"rUsT"` matches only line 1
(`"Rust:"`); line 4 contains no occurrence of `rust`, so the matched
set is `{1}`, not `{1, 4}` (the spec's `{1, 4}` belongs to the variant
input whose line 4 is `"Trust me."`, as in the unit test in
`src/lib.rs`). -/
theorem search_case_insensitive_duct_input :
    (search "rUsT" ["Rust:", "safe, fast, productive.", "Pick three.", "Duct tape."]
        true false).map LibMatch.line_number = [1]
    ∧ litIsMatch true "rUsT" "Duct tape." = false
    ∧ (search "rUsT" ["Rust:", "safe, fast, productive.", "Pick three.", "Trust me."]
        true false).map LibMatch.line_number = [1, 4] := by
  exact ⟨by decide, by decide, by decide⟩

/-- C8 counterexample: on the stated input the matched line numbers are
not `{1, 4}`. -/
theorem search_case_insensitive_spec_cex :
    (search "rUsT" ["Rust:", "safe, fast, productive.", "Pick three.", "Duct tape."]
        true false).map LibMatch.line_number ≠ [1, 4] := by
  decide

theorem lookupCount_bumpCount (p p' : String) (l : List (String × Nat)) :
    lookupCount (bumpCount l p) p' = lookupCount l p' + (if p' = p then 1 else 0) := by
  induction l with
  | nil =>
    by_cases h : p' = p
    · subst h; simp [bumpCount, lookupCount, List.lookup]
    · simp [bumpCount, lookupCount, List.lookup, beq_false_of_ne h, h]
  | cons kv tail ih =>
    obtain ⟨q, c⟩ := kv
    by_cases hqp : q = p
    · subst hqp
      simp only [bumpCount, if_pos rfl]
      by_cases h : p' = q
      · subst h; simp [lookupCount, List.lookup]
      · simp [lookupCount, List.lookup, beq_false_of_ne h, h]
    · simp only [bumpCount, if_neg hqp]
      by_cases h : p' = q
      · subst h
        simp [lookupCount, List.lookup, if_neg hqp, hqp]
      · simp only [lookupCount, List.lookup, beq_false_of_ne h] at ih ⊢
        exact ih

theorem keys_bumpCount (p : String) (l : List (String × Nat)) :
    (bumpCount l p).map Prod.fst
      = if p ∈ l.map Prod.fst then l.map Prod.fst else l.map Prod.fst ++ [p] := by
  induction l with
  | nil => simp [bumpCount]
  | cons kv tail ih =>
    obtain ⟨q, c⟩ := kv
    by_cases hqp : q = p
    · subst hqp
      simp [bumpCount]
    · simp only [bumpCount, if_neg hqp, List.map_cons]
      rw [ih]
      by_cases h : p ∈ tail.map Prod.fst
      · rw [if_pos h, if_pos (by simp [h])]
      · have hnot : p ∉ q :: List.map Prod.fst tail := by
          intro hc
          rcases List.mem_cons.mp hc with hc | hc
          · exact hqp hc.symm
          · exact h hc
        rw [if_neg h, if_neg hnot]
        rfl

theorem mem_keys_bumpCount (p p' : String) (l : List (String × Nat)) :
    p' ∈ (bumpCount l p).map Prod.fst ↔ p' ∈ l.map Prod.fst ∨ p' = p := by
  rw [keys_bumpCount]
  by_cases h : p ∈ l.map Prod.fst
  · rw [if_pos h]
    constructor
    · exact fun hx => Or.inl hx
    · intro hx
      rcases hx with hx | hx
      · exact hx
      · rw [hx]; exact h
  · rw [if_neg h]
    simp

theorem nodup_keys_bumpCount (p : String) (l : List (String × Nat))
    (hl : (l.map Prod.fst).Nodup) : ((bumpCount l p).map Prod.fst).Nodup := by
  rw [keys_bumpCount]
  by_cases h : p ∈ l.map Prod.fst
  · rw [if_pos h]; exact hl
  · rw [if_neg h]
    simp [List.nodup_append, hl, h]

theorem sum_bumpCount (p : String) (l : List (String × Nat)) :
    ((bumpCount l p).map Prod.snd).sum = (l.map Prod.snd).sum + 1 := by
  induction l with
  | nil => simp [bumpCount]
  | cons kv tail ih =>
    obtain ⟨q, c⟩ := kv
    by_cases hqp : q = p
    · subst hqp; simp [bumpCount]; omega
    · simp [bumpCount, if_neg hqp, ih]; omega

theorem matchedPaths_cons_matched (m : MatchedLine) (evs : List SinkEvent) :
    matchedPaths (SinkEvent.matched m :: evs) = m.path :: matchedPaths evs := by
  simp [matchedPaths]

theorem matchedPaths_cons_context (c : ContextLine) (evs : List SinkEvent) :
    matchedPaths (SinkEvent.context c :: evs) = matchedPaths evs := by
  simp [matchedPaths]

theorem matchedPaths_cons_break (evs : List SinkEvent) :
    matchedPaths (SinkEvent.contextBreak :: evs) = matchedPaths evs := by
  simp [matchedPaths]

theorem countRun_lookupCount (evs : List SinkEvent) :
    ∀ (s : CountSink) (p : String),
    lookupCount (CountSink.run s evs).counts p
      = lookupCount s.counts p + (matchedPaths evs).count p := by
  induction evs with
  | nil => intro s p; simp [CountSink.run, matchedPaths]
  | cons ev evs ih =>
    intro s p
    cases ev with
    | matched m =>
      rw [matchedPaths_cons_matched, List.count_cons]
      simp only [CountSink.run, CountSink.matched]
      rw [ih ⟨bumpCount s.counts m.path⟩ p]
      simp only [lookupCount_bumpCount]
      simp only [beq_iff_eq]
      split_ifs <;> first | omega | (subst_vars; simp_all)
    | context c =>
      rw [matchedPaths_cons_context]
      exact ih s p
    | contextBreak =>
      rw [matchedPaths_cons_break]
      exact ih s p

theorem countRun_keys_nodup (evs : List SinkEvent) :
    ∀ (s : CountSink), (s.counts.map Prod.fst).Nodup →
    ((CountSink.run s evs).counts.map Prod.fst).Nodup := by
  induction evs with
  | nil => intro s hs; exact hs
  | cons ev evs ih =>
    intro s hs
    cases ev with
    | matched m =>
      exact ih ⟨bumpCount s.counts m.path⟩ (nodup_keys_bumpCount m.path s.counts hs)
    | context c => exact ih s hs
    | contextBreak => exact ih s hs

theorem countRun_mem_keys (evs : List SinkEvent) :
    ∀ (s : CountSink) (p' : String),
    p' ∈ (CountSink.run s evs).counts.map Prod.fst ↔
      p' ∈ s.counts.map Prod.fst ∨ p' ∈ matchedPaths evs := by
  induction evs with
  | nil => intro s p'; simp [CountSink.run, matchedPaths]
  | cons ev evs ih =>
    intro s p'
    cases ev with
    | matched m =>
      have h := ih ⟨bumpCount s.counts m.path⟩ p'
      simp only [CountSink.run, CountSink.matched] at h ⊢
      rw [h, mem_keys_bumpCount, matchedPaths_cons_matched, List.mem_cons]
      tauto
    | context c =>
      rw [matchedPaths_cons_context]
      exact ih s p'
    | contextBreak =>
      rw [matchedPaths_cons_break]
      exact ih s p'

theorem countRun_sum (evs : List SinkEvent) :
    ∀ (s : CountSink),
    ((CountSink.run s evs).counts.map Prod.snd).sum
      = (s.counts.map Prod.snd).sum + (matchedPaths evs).length := by
  induction evs with
  | nil => intro s; simp [CountSink.run, matchedPaths]
  | cons ev evs ih =>
    intro s
    cases ev with
    | matched m =>
      rw [matchedPaths_cons_matched, List.length_cons]
      simp only [CountSink.run, CountSink.matched]
      rw [ih ⟨bumpCount s.counts m.path⟩]
      simp only [sum_bumpCount]
      omega
    | context c =>
      rw [matchedPaths_cons_context]
      exact ih s
    | contextBreak =>
      rw [matchedPaths_cons_break]
      exact ih s

theorem lookup_eq_some_of_mem_keys (p : String) (l : List (String × Nat))
    (h : p ∈ l.map Prod.fst) : l.lookup p = some (lookupCount l p) := by
  induction l with
  | nil => simp at h
  | cons kv tail ih =>
    obtain ⟨q, c⟩ := kv
    by_cases hq : p = q
    · subst hq
      simp [List.lookup, lookupCount]
    · simp only [List.map_cons, List.mem_cons] at h
      rcases h with h | h

      · exact absurd h hq
      · simp only [List.lookup, lookupCount, beq_false_of_ne hq]
        exact ih h

theorem map_lookupCount_keys (l : List (String × Nat))
    (hl : (l.map Prod.fst).Nodup) :
    (l.map Prod.fst).map (fun p => lookupCount l p) = l.map Prod.snd := by
  induction l with
  | nil => rfl
  | cons kv tail ih =>
    obtain ⟨q, c⟩ := kv
    simp only [List.map_cons, List.nodup_cons] at hl ⊢
    have hhead : lookupCount ((q, c) :: tail) q = c := by
      simp [lookupCount, List.lookup]
    have hcong : (tail.map Prod.fst).map (fun p => lookupCount ((q, c) :: tail) p)
        = (tail.map Prod.fst).map (fun p => lookupCount tail p) := by
      apply List.map_congr_left
      intro x hx
      have hxq : x ≠ q := fun hc => hl.1 (hc ▸ hx)
      simp [lookupCount, List.lookup, beq_false_of_ne hxq]
    rw [hhead, hcong, ih hl.2]

theorem orderedInsertPath_perm (x : String) (l : List String) :
    (orderedInsertPath x l).Perm (x :: l) := by
  induction l with
  | nil => exact List.Perm.refl _
  | cons y ys ih =>
    simp only [orderedInsertPath]
    split
    · exact List.Perm.refl _
    · exact (ih.cons y).trans (List.Perm.swap x y ys)

theorem sortPaths_perm (l : List String) : (sortPaths l).Perm l := by
  induction l with
  | nil => exact List.Perm.refl _
  | cons x xs ih => exact (orderedInsertPath_perm x (sortPaths xs)).trans (ih.cons x)

theorem filterMap_lookup_line (s : List (String × Nat)) (ps : List String)
    (h : ∀ x ∈ ps, x ∈ s.map Prod.fst) :
    ps.filterMap (fun p => (s.lookup p).map (fun c => p ++ ":" ++ toString c))
      = ps.map (fun p => p ++ ":" ++ toString (lookupCount s p)) := by
  induction ps with
  | nil => rfl
  | cons x ps ih =>
    simp only [List.filterMap_cons, List.map_cons]
    rw [lookup_eq_some_of_mem_keys x s (h x (List.mem_cons_self x ps))]
    simp only [Option.map_some']
    rw [ih (fun y hy => h y (List.mem_cons_of_mem x hy))]

theorem filterMap_lookup_vals (s : List (String × Nat)) (ps : List String)
    (h : ∀ x ∈ ps, x ∈ s.map Prod.fst) :
    ps.filterMap (fun p => s.lookup p) = ps.map (fun p => lookupCount s p) := by
  induction ps with
  | nil => rfl
  | cons x ps ih =>
    simp only [List.filterMap_cons, List.map_cons]
    rw [lookup_eq_some_of_mem_keys x s (h x (List.mem_cons_self x ps))]
    rw [ih (fun y hy => h y (List.mem_cons_of_mem x hy))]

/-- C7: running the `Count` sink over any sink-call trace, (1) the
recorded count for each path equals the number of `matched` calls for
that path — one increment per matched line, independent of the match
result, so fragments are not counted individually; (2) the recorded
paths are distinct; (3) a path is recorded iff it had at least one
matched line, so a zero-match file is never listed; (4) `finish` prints
one `path:count` line per recorded path in path-sorted order, followed
by a `Total` line (summing to the number of matched lines) exactly when
more than one distinct path matched; and (5) concretely, three matched
lines in file A (one of them a two-fragment line) and none in file B
print `fileA:3` with no `Total` line. -/
theorem count_sink_spec (evs : List SinkEvent) :
    (∀ p, lookupCount (CountSink.run ⟨[]⟩ evs).counts p = (matchedPaths evs).count p)
    ∧ ((CountSink.run ⟨[]⟩ evs).counts.map Prod.fst).Nodup
    ∧ (∀ p, p ∈ (CountSink.run ⟨[]⟩ evs).counts.map Prod.fst ↔ p ∈ matchedPaths evs)
    ∧ (CountSink.run ⟨[]⟩ evs).finish
        = (sortPaths ((CountSink.run ⟨[]⟩ evs).counts.map Prod.fst)).map
            (fun p => p ++ ":" ++ toString ((matchedPaths evs).count p))
          ++ (if 1 < ((CountSink.run ⟨[]⟩ evs).counts.map Prod.fst).length
              then ["Total: " ++ toString (matchedPaths evs).length] else [])
    ∧ CountSink.finish (CountSink.run ⟨[]⟩
        [SinkEvent.matched ⟨"fileA", 1, MatchResult.Line "x"⟩,
         SinkEvent.matched ⟨"fileA", 5, MatchResult.Content ["f", "g"]⟩,
         SinkEvent.matched ⟨"fileA", 9, MatchResult.Line "z"⟩]) = ["fileA:3"] := by
  have hcnt : ∀ p, lookupCount (CountSink.run ⟨[]⟩ evs).counts p
      = (matchedPaths evs).count p := by
    intro p
    have h := countRun_lookupCount evs ⟨[]⟩ p
    simpa [lookupCount, List.lookup] using h
  have hnd : ((CountSink.run ⟨[]⟩ evs).counts.map Prod.fst).Nodup :=
    countRun_keys_nodup evs ⟨[]⟩ (by simp)
  have hmem : ∀ p, p ∈ (CountSink.run ⟨[]⟩ evs).counts.map Prod.fst ↔
      p ∈ matchedPaths evs := by
    intro p
    have h := countRun_mem_keys evs ⟨[]⟩ p
    simpa using h
  refine ⟨hcnt, hnd, hmem, ?_, by decide⟩
  simp only [CountSink.finish]
  have hperm := sortPaths_perm ((CountSink.run ⟨[]⟩ evs).counts.map Prod.fst)
  have hmem2 : ∀ x ∈ sortPaths ((CountSink.run ⟨[]⟩ evs).counts.map Prod.fst),
      x ∈ (CountSink.run ⟨[]⟩ evs).counts.map Prod.fst :=
    fun x hx => hperm.mem_iff.mp hx
  rw [filterMap_lookup_line _ _ hmem2, filterMap_lookup_vals _ _ hmem2]
  have hbody : (sortPaths ((CountSink.run ⟨[]⟩ evs).counts.map Prod.fst)).map
        (fun p => p ++ ":" ++ toString (lookupCount (CountSink.run ⟨[]⟩ evs).counts p))
      = (sortPaths ((CountSink.run ⟨[]⟩ evs).counts.map Prod.fst)).map
        (fun p => p ++ ":" ++ toString ((matchedPaths evs).count p)) := by
    apply List.map_congr_left
    intro x _
    rw [hcnt x]
  rw [hbody]
  have hsum : ((sortPaths ((CountSink.run ⟨[]⟩ evs).counts.map Prod.fst)).map
        (fun p => lookupCount (CountSink.run ⟨[]⟩ evs).counts p)).sum
      = (matchedPaths evs).length := by
    have h1 := (hperm.map (fun p => lookupCount (CountSink.run ⟨[]⟩ evs).counts p)).sum_eq
    rw [h1, map_lookupCount_keys _ hnd]
    have h2 := countRun_sum evs ⟨[]⟩
    simpa using h2
  rw [hsum]
  simp only [List.length_map]

theorem regexFindAllAux_lb (pat s : List Char) :
    ∀ (i skip : Nat), ∀ e ∈ regexFindAllAux pat s i skip, i + skip ≤ e.1 := by
  induction s with
  | nil =>
    intro i skip e he
    cases skip with
    | zero =>
      simp only [regexFindAllAux] at he
      split at he
      · simp only [List.mem_singleton] at he
        subst he
        simp
      · simp at he
    | succ k => simp [regexFindAllAux] at he
  | cons c rest ih =>
    intro i skip e he
    cases skip with
    | succ k =>
      simp only [regexFindAllAux] at he
      have := ih (i + 1) k e he
      omega
    | zero =>
      simp only [regexFindAllAux] at he
      split at he
      · rcases List.mem_cons.mp he with he | he
        · subst he
          simp
        · have := ih (i + 1) (pat.length - 1) e he
          omega
      · have := ih (i + 1) 0 e he
        omega

theorem regexFindAllAux_sound (pat s : List Char) :
    ∀ (i skip : Nat), ∀ e ∈ regexFindAllAux pat s i skip,
      e.2 = pat ∧ ∃ d, e.1 = i + d ∧ pat <+: s.drop d := by
  induction s with
  | nil =>
    intro i skip e he
    cases skip with
    | zero =>
      simp only [regexFindAllAux] at he
      split at he
      · rename_i hemp
        simp only [List.mem_singleton] at he
        subst he
        refine ⟨(List.isEmpty_iff.mp hemp).symm, 0, rfl, ?_⟩
        simp [List.isEmpty_iff.mp hemp]
      · simp at he
    | succ k => simp [regexFindAllAux] at he
  | cons c rest ih =>
    intro i skip e he
    cases skip with
    | succ k =>
      simp only [regexFindAllAux] at he
      obtain ⟨h2, d, hd, hpref⟩ := ih (i + 1) k e he
      exact ⟨h2, d + 1, by omega, hpref⟩
    | zero =>
      simp only [regexFindAllAux] at he
      split at he
      · rename_i hpre
        rcases List.mem_cons.mp he with he | he
        · subst he
          exact ⟨rfl, 0, rfl, List.isPrefixOf_iff_prefix.mp hpre⟩
        · obtain ⟨h2, d, hd, hpref⟩ := ih (i + 1) (pat.length - 1) e he
          exact ⟨h2, d + 1, by omega, hpref⟩
      · obtain ⟨h2, d, hd, hpref⟩ := ih (i + 1) 0 e he
        exact ⟨h2, d + 1, by omega, hpref⟩

theorem regexFindAllAux_chain (pat s : List Char) :
    ∀ (i skip : Nat),
    (regexFindAllAux pat s i skip).Chain' (fun a b => a.1 + pat.length ≤ b.1) := by
  induction s with
  | nil =>
    intro i skip
    cases skip with
    | zero =>
      simp only [regexFindAllAux]
      split <;> simp
    | succ k => simp [regexFindAllAux]
  | cons c rest ih =>
    intro i skip
    cases skip with
    | succ k =>
      simp only [regexFindAllAux]
      exact ih (i + 1) k
    | zero =>
      simp only [regexFindAllAux]
      split
      · rw [List.chain'_cons']
        refine ⟨?_, ih (i + 1) (pat.length - 1)⟩
        intro b hb
        have hmem := List.mem_of_mem_head? hb
        have := regexFindAllAux_lb pat rest (i + 1) (pat.length - 1) b hmem
        omega
      · exact ih (i + 1) 0

theorem regexFindAllAux_complete (pat s : List Char) (hp : pat ≠ []) :
    ∀ (i skip q : Nat), skip ≤ q → pat <+: s.drop q →
      ∃ e ∈ regexFindAllAux pat s i skip,
        e.1 ≤ i + q ∧ i + q < e.1 + pat.length := by
  induction s with
  | nil =>
    intro i skip q _ hq
    rw [List.drop_nil] at hq
    exact absurd (List.prefix_nil.mp hq) hp
  | cons c rest ih =>
    have hL : 1 ≤ pat.length := by
      cases pat with
      | nil => exact absurd rfl hp
      | cons a as => simp
    intro i skip q hsk hq
    cases skip with
    | succ k =>
      obtain ⟨q', rfl⟩ : ∃ q', q = q' + 1 := ⟨q - 1, by omega⟩
      have hq2 : (c :: rest).drop (q' + 1) = rest.drop q' := rfl
      rw [hq2] at hq
      obtain ⟨e, he, h1, h2⟩ := ih (i + 1) k q' (by omega) hq
      refine ⟨e, ?_, by omega, by omega⟩
      simp only [regexFindAllAux]
      exact he
    | zero =>
      by_cases hpre : pat.isPrefixOf (c :: rest) = true
      · by_cases hcase : q < pat.length
        · refine ⟨(i, pat), ?_, by omega, by omega⟩
          simp only [regexFindAllAux, if_pos hpre, List.mem_cons]
          exact Or.inl trivial
        · obtain ⟨q', rfl⟩ : ∃ q', q = q' + 1 := ⟨q - 1, by omega⟩
          have hq2 : (c :: rest).drop (q' + 1) = rest.drop q' := rfl
          rw [hq2] at hq
          obtain ⟨e, he, h1, h2⟩ := ih (i + 1) (pat.length - 1) q' (by omega) hq
          refine ⟨e, ?_, by omega, by omega⟩
          simp only [regexFindAllAux, if_pos hpre, List.mem_cons]
          exact Or.inr he
      · cases q with
        | zero =>
          rw [List.drop_zero] at hq
          exact absurd ( List.isPrefixOf_iff_prefix.mpr hq) hpre
        | succ q' =>
          have hq2 : (c :: rest).drop (q' + 1) = rest.drop q' := rfl
          rw [hq2] at hq
          obtain ⟨e, he, h1, h2⟩ := ih (i + 1) 0 q' (by omega) hq
          refine ⟨e, ?_, by omega, by omega⟩
          simp only [regexFindAllAux, if_neg hpre]
          exact he

/-- C6: for every line `L` and nonempty literal pattern, with the
external engine's `find_iter` modelled by `regexFindAllAux`,
`OnlyMatchingMatcher::find` returns `Fragments` of the reported
occurrence list (or `none` when it is empty), and that list is exactly
the ordered left-to-right list of non-overlapping occurrences: (a) each
reported fragment is the pattern, copied verbatim from `L` at the
reported position; (b) positions are strictly left-to-right with gaps
of at least the pattern length (non-overlapping); (c) every occurrence
of the pattern in `L` overlaps a reported one (leftmost completeness). -/
theorem only_matching_fragments (pat : List Char) (L : String) (hp : pat ≠ []) :
    (OnlyMatchingMatcher.find (litFindIter pat) L
      = if (regexFindAllAux pat L.toList 0 0).isEmpty then none
        else some (MatchResult.Content (litFindIter pat L)))
    ∧ (∀ e ∈ regexFindAllAux pat L.toList 0 0,
        e.2 = pat ∧ pat <+: L.toList.drop e.1)
    ∧ (regexFindAllAux pat L.toList 0 0).Chain'
        (fun a b => a.1 + pat.length ≤ b.1)
    ∧ (∀ q, pat <+: L.toList.drop q →
        ∃ e ∈ regexFindAllAux pat L.toList 0 0,
          e.1 ≤ q ∧ q < e.1 + pat.length) := by
  refine ⟨?_, ?_, regexFindAllAux_chain pat L.toList 0 0, ?_⟩
  · have hie : ∀ (l : List (Nat × List Char)),
        (l.map (fun e => String.mk e.2)).isEmpty = l.isEmpty := by
      intro l; cases l <;> rfl
    simp only [OnlyMatchingMatcher.find, litFindIter, hie]
  · intro e he
    obtain ⟨h2, d, hd, hpref⟩ := regexFindAllAux_sound pat L.toList 0 0 e he
    refine ⟨h2, ?_⟩
    rw [hd]
    simpa using hpref
  · intro q hq
    have h := regexFindAllAux_complete pat L.toList hp 0 0 q (by omega) hq
    simpa using h

/-- Witness for C6's theorem: pattern `ab` on `"xababy"` yields the two
non-overlapping fragments `ab` at positions 1 and 3. -/
theorem only_matching_fragments_witness :
    (['a', 'b'] : List Char) ≠ []
    ∧ OnlyMatchingMatcher.find (litFindIter ['a', 'b']) "xababy"
        = some (MatchResult.Content ["ab", "ab"])
    ∧ (∀ e ∈ regexFindAllAux ['a', 'b'] "xababy".toList 0 0, e.2 = ['a', 'b']) := by
  have h := only_matching_fragments ['a', 'b'] "xababy" (by decide)
  exact ⟨by decide, h.1.trans (by decide), fun e he => (h.2.1 e he).1⟩

end Minigrep
